import Mathlib

/-!
Verification of the design specification of the hybrid text/binary
container format demonstrated by the repository's ASDF tutorial notebooks
(`src/12-ASDF`).  The notebooks only call a pre-built library, so the five
components named by the specification (Block Store, Tag Registry, Tree
Codec, Container Assembler, File Handle) are modelled here from the
specification's own words and the behaviour the notebooks demonstrate.

Modelling conventions:
- in-memory object identity (Python `id`) is an explicit `oid : Nat` field
  on array objects; two tree positions alias one object exactly when their
  `oid`s coincide;
- the textual segment is the inductive `TextNode` (YAML scalars, ordered
  sequences, ordered mappings, anchors/aliases, tag annotations);
- byte streams are `List Nat` with explicit `% 256` / `% 2 ^ 32` /
  `% 2 ^ 64` arithmetic where fixed-width fields are serialized.
-/

namespace Asdf

/-- Modelled from the spec (§3 Node): scalar values of the tree —
string / number / bool / null.  A number literal is either an integer or
a decimal float written as mantissa and decimal exponent. -/
inductive Scalar where
  | str (v : String)
  | int (v : Int)
  | float (mant : Int) (exp : Int)
  | bool (v : Bool)
  | null
deriving Repr, DecidableEq

/-- Modelled from the spec (§3 LazyArray / §4.1): an in-memory array
object.  `oid` is the reference identity of the in-memory object (Python
`id`); deduplication is by this identity, not by byte equality. -/
structure ArrayObj where
  oid : Nat
  shape : List Nat
  data : List Nat
deriving Repr, DecidableEq

/-- Modelled from the spec (§3 Node): a tagged value of the tree.
`raw` is an unresolved TypedNode kept as an opaque node (§4.2
forward-compatibility); `unsupported` stands for a foreign in-memory value
no converter can serialize (§4.3 UnserializableType). -/
inductive Node where
  | scalar (v : Scalar)
  | seq (items : List Node)
  | map (entries : List (String × Node))
  | arr (a : ArrayObj)
  | typed (tag : String) (ver : Nat) (payload : Node)
  | raw (tag : String) (ver : Nat) (payload : Node)
  | unsupported (desc : String)

/-- Modelled from the spec (§6 file format): a node of the textual
segment — scalars, ordered sequences, ordered mappings, anchor/alias
references, and tag+version annotations. -/
inductive TextNode where
  | scalar (v : Scalar)
  | seq (items : List TextNode)
  | map (entries : List (String × TextNode))
  | anchor (aid : Nat) (body : TextNode)
  | alias (aid : Nat)
  | tagged (tag : String) (ver : Nat) (body : TextNode)

/-- Modelled from the spec (§3 Block): a raw binary payload with its
compression algorithm code (0 = none). -/
structure Block where
  alg : Nat
  data : List Nat
deriving Repr, DecidableEq

/-- Modelled from the spec (§4.3): the traversal-scoped state of one
encode pass — the blocks allocated so far and the identity map sending
the `oid` of each already-registered in-memory array to its block source
index (§4.1 `find_existing`, deduplication by reference identity). -/
structure EncSt where
  blocks : List Block
  blockOf : List (Nat × Nat)
deriving Repr

/-- The reserved tag of the core array type. -/
def ndarrayTag : String := "core/ndarray"

/-- Textual encoding of an array shape: a sequence of integer scalars. -/
def shapeText (shape : List Nat) : TextNode :=
  TextNode.seq (shape.map fun n => TextNode.scalar (Scalar.int (Int.ofNat n)))

/-- Textual body of an array node: the block source index it references
and its shape, as shown by the notebook's anchor/alias example. -/
def ndarrayText (src : Nat) (shape : List Nat) : TextNode :=
  TextNode.map [("source", TextNode.scalar (Scalar.int (Int.ofNat src))),
                ("shape", shapeText shape)]

mutual

/-- Modelled from the spec (§4.3 Encode): walk the tree depth-first;
an array object first seen is emitted once with an anchor and its payload
is registered as a new block; an array whose identity is already in the
identity map is emitted as an alias to the prior anchor (deduplication);
unsupported values fail. -/
def encNode : Node → EncSt → Option (TextNode × EncSt)
  | Node.scalar v, st => some (TextNode.scalar v, st)
  | Node.seq items, st =>
      (encList items st).bind fun p => some (TextNode.seq p.1, p.2)
  | Node.map entries, st =>
      (encEntries entries st).bind fun p => some (TextNode.map p.1, p.2)
  | Node.arr a, st =>
      match st.blockOf.lookup a.oid with
      | some _ => some (TextNode.alias a.oid, st)
      | none =>
          let src := st.blocks.length
          some (TextNode.anchor a.oid
                  (TextNode.tagged ndarrayTag 1 (ndarrayText src a.shape)),
                ⟨st.blocks ++ [⟨0, a.data⟩], (a.oid, src) :: st.blockOf⟩)
  | Node.typed tag ver payload, st =>
      (encNode payload st).bind fun p => some (TextNode.tagged tag ver p.1, p.2)
  | Node.raw tag ver payload, st =>
      (encNode payload st).bind fun p => some (TextNode.tagged tag ver p.1, p.2)
  | Node.unsupported _, _ => none

/-- Encode the items of a sequence in order, threading the block store
and identity map. -/
def encList : List Node → EncSt → Option (List TextNode × EncSt)
  | [], st => some ([], st)
  | n :: rest, st =>
      (encNode n st).bind fun p =>
        (encList rest p.2).bind fun q => some (p.1 :: q.1, q.2)

/-- Encode the entries of a mapping in key order, threading the block
store and identity map. -/
def encEntries : List (String × Node) → EncSt → Option (List (String × TextNode) × EncSt)
  | [], st => some ([], st)
  | (k, n) :: rest, st =>
      (encNode n st).bind fun p =>
        (encEntries rest p.2).bind fun q => some ((k, p.1) :: q.1, q.2)

end

/-- Modelled from the spec (§4.2): a registered converter entry — the tag
it handles and the inclusive version range it understands. -/
structure ConvEntry where
  tag : String
  vmin : Nat
  vmax : Nat
deriving Repr, DecidableEq

/-- Modelled from the spec (§4.2 Tag Registry): the table of registered
converters. -/
structure TagReg where
  convs : List ConvEntry
deriving Repr, DecidableEq

/-- Modelled from the spec (§4.2 `resolve`): select the first converter
whose tag matches and whose declared version range covers the tag's
declared version; `none` plays the role of `UnknownTag`. -/
def resolve (reg : TagReg) (tag : String) (ver : Nat) : Option ConvEntry :=
  reg.convs.find? fun e => e.tag == tag && decide (e.vmin ≤ ver) && decide (ver ≤ e.vmax)

/-- Parse a textual sequence of integer scalars back into a list of
naturals (the shape field of an array node). -/
def parseNatList : List TextNode → Option (List Nat)
  | [] => some []
  | TextNode.scalar (Scalar.int (Int.ofNat n)) :: rest =>
      (parseNatList rest).bind fun l => some (n :: l)
  | _ => none

/-- Parse the body of a `core/ndarray` tagged node: its block source
index and its shape. -/
def parseNdarray : TextNode → Option (Nat × List Nat)
  | TextNode.map [("source", TextNode.scalar (Scalar.int (Int.ofNat src))),
                  ("shape", TextNode.seq items)] =>
      (parseNatList items).bind fun shape => some (src, shape)
  | _ => none

/-- Modelled from the spec (§4.3 Decode): the state of one decode pass —
the map sending each anchor identifier already decoded to the shared
sub-object it produced. -/
structure DecSt where
  amap : List (Nat × Node)

mutual

/-- Modelled from the spec (§4.3 Decode): parse the textual segment back
into a tree, resolving anchor/alias references into shared sub-objects;
a `core/ndarray` tagged node is reconstructed from its referenced block;
any other tagged node is reconstructed as a TypedNode when the registry
resolves its tag and version, and is preserved as an opaque raw node
otherwise — decoding of the rest of the tree is not aborted. -/
def decNode (reg : TagReg) (blocks : List Block) : TextNode → DecSt → Option (Node × DecSt)
  | TextNode.scalar v, st => some (Node.scalar v, st)
  | TextNode.seq items, st =>
      (decList reg blocks items st).bind fun p => some (Node.seq p.1, p.2)
  | TextNode.map entries, st =>
      (decEntries reg blocks entries st).bind fun p => some (Node.map p.1, p.2)
  | TextNode.anchor aid body, st =>
      (decNode reg blocks body st).bind fun p =>
        let n := match p.1 with
                 | Node.arr a => Node.arr { a with oid := aid }
                 | other => other
        some (n, ⟨(aid, n) :: p.2.amap⟩)
  | TextNode.alias aid, st =>
      (st.amap.lookup aid).bind fun n => some (n, st)
  | TextNode.tagged tag ver body, st =>
      if tag = ndarrayTag then
        (parseNdarray body).bind fun sd =>
          (blocks.get? sd.1).bind fun b =>
            some (Node.arr ⟨0, sd.2, b.data⟩, st)
      else
        (decNode reg blocks body st).bind fun p =>
          match resolve reg tag ver with
          | some _ => some (Node.typed tag ver p.1, p.2)
          | none => some (Node.raw tag ver p.1, p.2)

/-- Decode the items of a textual sequence in order. -/
def decList (reg : TagReg) (blocks : List Block) : List TextNode → DecSt → Option (List Node × DecSt)
  | [], st => some ([], st)
  | t :: rest, st =>
      (decNode reg blocks t st).bind fun p =>
        (decList reg blocks rest p.2).bind fun q => some (p.1 :: q.1, q.2)

/-- Decode the entries of a textual mapping in key order. -/
def decEntries (reg : TagReg) (blocks : List Block) : List (String × TextNode) → DecSt → Option (List (String × Node) × DecSt)
  | [], st => some ([], st)
  | (k, t) :: rest, st =>
      (decNode reg blocks t st).bind fun p =>
        (decEntries reg blocks rest p.2).bind fun q => some ((k, p.1) :: q.1, q.2)

end

/-- Encode a whole tree: one encode pass started with an empty block
store and a cleared identity map.  Returns the textual segment and the
allocated blocks in declaration order. -/
def encodeTree (t : Node) : Option (TextNode × List Block) :=
  (encNode t ⟨[], []⟩).map fun p => (p.1, p.2.blocks)

/-- Decode a textual segment against a block list: one decode pass
started with an empty anchor map. -/
def decodeTree (reg : TagReg) (text : TextNode) (blocks : List Block) : Option Node :=
  (decNode reg blocks text ⟨[]⟩).map Prod.fst

mutual

/-- All array objects occurring in a tree, in depth-first order. -/
def arraysOf : Node → List ArrayObj
  | Node.scalar _ => []
  | Node.seq items => arraysOfList items
  | Node.map entries => arraysOfEntries entries
  | Node.arr a => [a]
  | Node.typed _ _ p => arraysOf p
  | Node.raw _ _ p => arraysOf p
  | Node.unsupported _ => []

/-- All array objects occurring in a list of trees. -/
def arraysOfList : List Node → List ArrayObj
  | [] => []
  | n :: rest => arraysOf n ++ arraysOfList rest

/-- All array objects occurring in mapping entries. -/
def arraysOfEntries : List (String × Node) → List ArrayObj
  | [] => []
  | (_, n) :: rest => arraysOf n ++ arraysOfEntries rest

end

mutual

/-- A tree contains only representable node types (relative to a
registry): no unserializable foreign value, every TypedNode's tag is
registered (and is not the reserved array tag), and every opaque raw node
carries a tag the registry does not resolve (so it re-encodes and decodes
back to the same opaque node). -/
def repOK (reg : TagReg) : Node → Bool
  | Node.scalar _ => true
  | Node.seq items => repOKList reg items
  | Node.map entries => repOKEntries reg entries
  | Node.arr _ => true
  | Node.typed tag ver p =>
      (tag != ndarrayTag) && (resolve reg tag ver).isSome && repOK reg p
  | Node.raw tag ver p =>
      (tag != ndarrayTag) && (resolve reg tag ver).isNone && repOK reg p
  | Node.unsupported _ => false

/-- Representability of every item of a sequence. -/
def repOKList (reg : TagReg) : List Node → Bool
  | [] => true
  | n :: rest => repOK reg n && repOKList reg rest

/-- Representability of every mapping entry value. -/
def repOKEntries (reg : TagReg) : List (String × Node) → Bool
  | [] => true
  | (_, n) :: rest => repOK reg n && repOKEntries reg rest

end

/-- Well-formedness of the embedding of in-memory identity: two array
objects of one tree carrying the same object identity are the same
object (same shape and bytes) — true of any real in-memory tree, where
`oid` is the address of the object. -/
def coherent (t : Node) : Bool :=
  (arraysOf t).all fun a => (arraysOf t).all fun b => (a.oid != b.oid) || (a == b)

/-! ### Structural search (§4.5 File Handle: `search`) -/

/-- Key-name substring test: `pat` occurs contiguously in `s`. -/
def strContains (s pat : String) : Bool :=
  s.toList.tails.any fun t => pat.toList.isPrefixOf t

mutual

/-- Modelled from the spec (§4.5 `search`): depth-first traversal of the
tree collecting the paths of mapping keys whose name contains the
pattern as a substring.  Opaque raw nodes are traversed like any other
node, so the rest of the tree remains searchable. -/
def searchNode (pat : String) : Node → List String → List (List String)
  | Node.seq items, path => searchList pat items path 0
  | Node.map entries, path => searchEntries pat entries path
  | Node.typed _ _ p, path => searchNode pat p path
  | Node.raw _ _ p, path => searchNode pat p path
  | _, _ => []

/-- Search the items of a sequence, extending the path with the index. -/
def searchList (pat : String) : List Node → List String → Nat → List (List String)
  | [], _, _ => []
  | n :: rest, path, i =>
      searchNode pat n (path ++ [toString i]) ++ searchList pat rest path (i + 1)

/-- Search the entries of a mapping: record the path of each matching
key, then descend into the value. -/
def searchEntries (pat : String) : List (String × Node) → List String → List (List String)
  | [], _ => []
  | (k, v) :: rest, path =>
      (if strContains k pat then [path ++ [k]] else []) ++
        searchNode pat v (path ++ [k]) ++ searchEntries pat rest path

end

/-- Structural search of a tree from the root. -/
def search (t : Node) (pat : String) : List (List String) :=
  searchNode pat t []

/-! ### Container Assembler (§4.4, §6): physical byte-stream layout -/

/-- Magic header bytes of the format. -/
def MAGIC : List Nat := [35, 65, 83, 68, 70]

/-- Format version byte written right after the magic. -/
def VERSION : Nat := 1

/-- Sentinel byte sequence terminating the textual tree segment
(the YAML end-of-document marker on its own line). -/
def SENTINEL : List Nat := [10, 46, 46, 46, 10]

/-- Per-block magic introducing each raw binary block. -/
def BLOCK_MAGIC : List Nat := [211, 66, 76, 75]

/-- Marker introducing the trailing block index. -/
def INDEX_MAGIC : List Nat := [35, 73, 78, 68, 88]

/-- `w`-byte little-endian serialization of `n % 256 ^ w`. -/
def natBytesLE : Nat → Nat → List Nat
  | 0, _ => []
  | w + 1, n => n % 256 :: natBytesLE w (n / 256)

/-- Read back a little-endian byte sequence as a natural number. -/
def bytesToNatLE : List Nat → Nat
  | [] => 0
  | b :: rest => b % 256 + 256 * bytesToNatLE rest

/-- Modelled from the spec (§6): the checksum of a payload, a 32-bit
sum of its bytes. -/
def checksumOf (bs : List Nat) : Nat :=
  (bs.foldl (fun acc b => acc + b) 0) % 2 ^ 32

/-- Modelled from the spec (§6): the on-disk bytes of one raw block —
block magic, algorithm byte, 64-bit uncompressed size, payload bytes. -/
def blockBytes (b : Block) : List Nat :=
  BLOCK_MAGIC ++ [b.alg % 256] ++ natBytesLE 8 b.data.length ++ b.data

/-- One fixed-width block-index entry: 64-bit offset, 64-bit size,
32-bit checksum. -/
def indexEntryBytes (off size ck : Nat) : List Nat :=
  natBytesLE 8 off ++ natBytesLE 8 size ++ natBytesLE 4 ck

/-- Byte offsets of consecutive blocks, the first placed at `start`. -/
def blockOffsets (start : Nat) : List Block → List Nat
  | [] => []
  | b :: rest => start :: blockOffsets (start + (blockBytes b).length) rest

/-- Modelled from the spec (§4.4, §6): the trailing block index — marker,
64-bit entry count, then one fixed-width entry per block in order. -/
def indexBytes (start : Nat) (blocks : List Block) : List Nat :=
  INDEX_MAGIC ++ natBytesLE 8 blocks.length ++
    ((blocks.zip (blockOffsets start blocks)).map fun p =>
      indexEntryBytes p.2 p.1.data.length (checksumOf p.1.data)).flatten

/-- Modelled from the spec (§4.4 layout order): magic header and format
version, then the textual tree segment terminated by the sentinel, then
the raw blocks in declaration order, then the optional block index. -/
def assembleFile (treeBytes : List Nat) (blocks : List Block) (withIndex : Bool) : List Nat :=
  let pre := MAGIC ++ [VERSION] ++ treeBytes ++ SENTINEL
  pre ++ (blocks.map blockBytes).flatten ++
    (if withIndex then indexBytes pre.length blocks else [])

/-- First position at which `pat` occurs in the scanned list, counting
from `k`. -/
def findSeqAux (pat : List Nat) : List Nat → Nat → Option Nat
  | [], k => if pat.isPrefixOf [] then some k else none
  | b :: t, k => if pat.isPrefixOf (b :: t) then some k else findSeqAux pat t (k + 1)

/-- First position at which `pat` occurs in `l`. -/
def findSeq (l pat : List Nat) : Option Nat := findSeqAux pat l 0

/-- The textual segment contains no occurrence of the sentinel, not even
one straddling its own end (scanning `t ++ SENTINEL` from every position
strictly inside `t`). -/
def sentinelFree : List Nat → Bool
  | [] => true
  | b :: t => (!SENTINEL.isPrefixOf ((b :: t) ++ SENTINEL)) && sentinelFree t

/-- Parse consecutive raw blocks until the bytes no longer start with a
block magic; the fuel argument bounds the number of blocks and makes the
recursion structural. -/
def parseBlocksAux : Nat → List Nat → Option (List Block × List Nat)
  | 0, l => if BLOCK_MAGIC.isPrefixOf l then none else some ([], l)
  | fuel + 1, l =>
      if BLOCK_MAGIC.isPrefixOf l then
        match l.drop 4 with
        | alg :: r2 =>
            if (r2.take 8).length = 8 then
              let sz := bytesToNatLE (r2.take 8)
              let dat := (r2.drop 8).take sz
              if dat.length = sz then
                (parseBlocksAux fuel ((r2.drop 8).drop sz)).bind fun p =>
                  some (⟨alg, dat⟩ :: p.1, p.2)
              else none
            else none
        | [] => none
      else some ([], l)

/-- Parse `count` fixed-width index entries. -/
def parseIndexEntries : Nat → List Nat → Option (List (Nat × Nat × Nat) × List Nat)
  | 0, l => some ([], l)
  | c + 1, l =>
      if (l.take 20).length = 20 then
        (parseIndexEntries c (l.drop 20)).bind fun p =>
          some ((bytesToNatLE ((l.take 20).take 8),
                 bytesToNatLE (((l.take 20).drop 8).take 8),
                 bytesToNatLE ((l.take 20).drop 16)) :: p.1, p.2)
      else none

/-- Parse the trailing block index: marker, 64-bit count, then exactly
that many entries consuming the rest of the stream. -/
def parseIndex (l : List Nat) : Option (List (Nat × Nat × Nat)) :=
  if INDEX_MAGIC.isPrefixOf l then
    let r := l.drop 5
    if (r.take 8).length = 8 then
      (parseIndexEntries (bytesToNatLE (r.take 8)) (r.drop 8)).bind fun p =>
        if p.2.isEmpty then some p.1 else none
    else none
  else none

/-- Modelled from the spec (§4.4): parse a whole-file byte stream back
into its segments — check the magic header and version, split the
textual segment at the first sentinel occurrence, parse the raw blocks
in order, then the optional block index (whose entry count must match
the number of blocks parsed). -/
def parseFile (stream : List Nat) : Option (List Nat × List Block × Bool) :=
  if MAGIC.isPrefixOf stream then
    match stream.drop 5 with
    | v :: r1 =>
        if v = VERSION then
          (findSeq r1 SENTINEL).bind fun i =>
            let treeBytes := r1.take i
            let r2 := r1.drop (i + SENTINEL.length)
            (parseBlocksAux r2.length r2).bind fun p =>
              match p.2 with
              | [] => some (treeBytes, p.1, false)
              | rest =>
                  (parseIndex rest).bind fun es =>
                    if es.length = p.1.length then some (treeBytes, p.1, true)
                    else none
        else none
    | [] => none
  else none

/-! ### Rendering the textual segment to bytes (for whole-file writes) -/

/-- Bytes of a string (character code points). -/
def strBytes (s : String) : List Nat := s.toList.map Char.toNat

/-- Deterministic textual rendering of a scalar. -/
def renderScalar : Scalar → List Nat
  | Scalar.str s => 34 :: strBytes s ++ [34]
  | Scalar.int v => strBytes (toString v)
  | Scalar.float m e => strBytes (toString m) ++ [101] ++ strBytes (toString e)
  | Scalar.bool b => if b then strBytes "true" else strBytes "false"
  | Scalar.null => strBytes "null"

mutual

/-- Deterministic rendering of a textual-segment node to bytes. -/
def renderText : TextNode → List Nat
  | TextNode.scalar v => renderScalar v
  | TextNode.seq items => 91 :: renderTextList items ++ [93]
  | TextNode.map entries => 123 :: renderTextEntries entries ++ [125]
  | TextNode.anchor aid body => 38 :: strBytes (toString aid) ++ [32] ++ renderText body
  | TextNode.alias aid => 42 :: strBytes (toString aid)
  | TextNode.tagged tag ver body =>
      33 :: strBytes tag ++ [45] ++ strBytes (toString ver) ++ [32] ++ renderText body

/-- Render sequence items separated by commas. -/
def renderTextList : List TextNode → List Nat
  | [] => []
  | [t] => renderText t
  | t :: rest => renderText t ++ [44] ++ renderTextList rest

/-- Render mapping entries as `key: value` pairs separated by commas. -/
def renderTextEntries : List (String × TextNode) → List Nat
  | [] => []
  | [(k, t)] => strBytes k ++ [58, 32] ++ renderText t
  | (k, t) :: rest => strBytes k ++ [58, 32] ++ renderText t ++ [44] ++ renderTextEntries rest

end

/-! ### Writer-side file handle (§4.5): tree assignment and writes -/

/-- Modelled from the spec (§4.5 File Handle, §4.3): the in-memory
handle — its tree, and the traversal-scoped identity map left over from
the last write pass (which must be cleared between independent write
calls). -/
structure Handle where
  tree : Node
  identMap : List (Nat × Nat)

/-- Is the tree a mapping at its root? -/
def isMap : Node → Bool
  | Node.map _ => true
  | _ => false

/-- Ordered-insertion update of mapping entries: an existing key keeps
its position and gets the new value; a new key is appended. -/
def mapSet : List (String × Node) → String → Node → List (String × Node)
  | [], k, v => [(k, v)]
  | (k', v') :: rest, k, v =>
      if k' == k then (k', v) :: rest else (k', v') :: mapSet rest k v

/-- Assign `tree[k] = v` on the root mapping. -/
def treeSet (t : Node) (k : String) (v : Node) : Node :=
  match t with
  | Node.map entries => Node.map (mapSet entries k v)
  | other => other

/-- Read `tree[k]` from the root mapping. -/
def treeGet (t : Node) (k : String) : Option Node :=
  match t with
  | Node.map entries => entries.lookup k
  | _ => none

/-- `handle[k] = v`: the notebook states that assigning to the handle
object is equivalent to assigning to its tree — the handle's item
assignment delegates to the tree. -/
def handleSetItem (h : Handle) (k : String) (v : Node) : Handle :=
  { h with tree := treeSet h.tree k v }

/-- `handle.tree[k] = v`: assignment through the tree attribute of the
handle; the tree is owned by the handle, so mutating it updates the
handle's state. -/
def handleTreeAssign (h : Handle) (k : String) (v : Node) : Handle :=
  { h with tree := treeSet h.tree k v }

/-- `handle[k]`: reading through the handle delegates to the tree. -/
def handleGetItem (h : Handle) (k : String) : Option Node :=
  treeGet h.tree k

/-- Modelled from the spec (§4.3, §8 Idempotence): one write pass —
the traversal-scoped identity map is cleared, the tree is encoded, and
the assembler lays out header, rendered textual segment, blocks and
index.  The handle keeps the pass's identity map afterwards. -/
def writePass (h : Handle) : Option (List Nat) × Handle :=
  match encNode h.tree ⟨[], []⟩ with
  | none => (none, h)
  | some (t, st) =>
      (some (assembleFile (renderText t) st.blocks true), { h with identMap := st.blockOf })

/-! ### Reader-side file handle (§3 FileImage, §4.1, §4.5): open modes,
lazy loading, integrity and readonly enforcement -/

/-- Open modes of a file handle. -/
inductive Mode where
  | readonly
  | update
deriving Repr, DecidableEq

/-- A block as stored on disk, with the checksum recorded for it in the
file (which a corrupt or truncated payload no longer matches). -/
structure StoredBlock where
  data : List Nat
  storedChecksum : Nat
deriving Repr, DecidableEq

/-- Modelled from the spec (§3 FileImage): the on-disk image a handle
opens — the parsed textual segment's array entries (key and block source
index) and the raw blocks. -/
structure DiskFile where
  arrayKeys : List (String × Nat)
  diskBlocks : List StoredBlock
deriving Repr, DecidableEq

/-- Input events a handle performs on its byte source; block reads are
recorded with the block's source index. -/
inductive IoEvent where
  | readTextSegment
  | readBlockIndex
  | readBlock (i : Nat)
deriving Repr, DecidableEq

/-- Modelled from the spec (§3 LazyArray): a lazy array handle — the
block source it references and its memoized payload, `none` until first
access. -/
structure LazySlot where
  source : Nat
  cache : Option (List Nat)
deriving Repr, DecidableEq

/-- An opened file handle: mode, backing image, one lazy slot per array
entry, and the log of input events performed so far. -/
structure OpenHandle where
  mode : Mode
  disk : DiskFile
  slots : List (String × LazySlot)
  ioLog : List IoEvent
deriving Repr, DecidableEq

/-- Error kinds of reader-side operations (§7). -/
inductive AccessErr where
  | BlockIntegrityError
  | ReadOnlyViolation
  | KeyNotFound
  | IndexOutOfRange
deriving Repr, DecidableEq

/-- Modelled from the spec (§4.5 `open`, §4.1 lazy loading): open reads
the textual segment and the block index only; every array is bound to a
lazy, unloaded slot, and no block payload is read. -/
def openFile (d : DiskFile) (m : Mode) : OpenHandle :=
  { mode := m, disk := d,
    slots := d.arrayKeys.map fun p => (p.1, { source := p.2, cache := none }),
    ioLog := [IoEvent.readTextSegment, IoEvent.readBlockIndex] }

/-- Modelled from the spec (§6 Environment/config): the recognized
configuration options with their defaults; the default open mode is
readonly, as the solutions notebook states. -/
structure Config where
  defaultCompression : Nat
  mmap : Bool
  validateOnOpen : Bool
  defaultMode : Mode

/-- The default configuration used when `open` is called without an
explicit mode. -/
def defaultConfig : Config :=
  { defaultCompression := 0, mmap := true, validateOnOpen := false,
    defaultMode := Mode.readonly }

/-- `open` without an explicit mode argument: uses the configured
default mode. -/
def openDefault (d : DiskFile) : OpenHandle :=
  openFile d defaultConfig.defaultMode

/-- Update the slot bound to a key, keeping entry order. -/
def slotSet : List (String × LazySlot) → String → LazySlot → List (String × LazySlot)
  | [], _, _ => []
  | (k', s') :: rest, k, s =>
      if k' == k then (k', s) :: rest else (k', s') :: slotSet rest k s

/-- Replace the payload bytes of block `i` in place (a memory-mapped
write); the recorded checksum is untouched. -/
def blockSet (bs : List StoredBlock) (i : Nat) (d : List Nat) : List StoredBlock :=
  match bs.get? i with
  | some b => bs.set i { b with data := d }
  | none => bs

/-- Modelled from the spec (§4.1 `read`, failure semantics): materialize
a lazy array — return the memoized payload if already loaded, otherwise
read the referenced block now (logging the read), failing with
`BlockIntegrityError` if the block is missing or its payload does not
match the recorded checksum, and memoizing the payload on success. -/
def materialize (h : OpenHandle) (k : String) : Except AccessErr (List Nat) × OpenHandle :=
  match h.slots.lookup k with
  | none => (Except.error AccessErr.KeyNotFound, h)
  | some slot =>
      match slot.cache with
      | some d => (Except.ok d, h)
      | none =>
          match h.disk.diskBlocks.get? slot.source with
          | none =>
              (Except.error AccessErr.BlockIntegrityError,
               { h with ioLog := h.ioLog ++ [IoEvent.readBlock slot.source] })
          | some b =>
              let h' := { h with ioLog := h.ioLog ++ [IoEvent.readBlock slot.source] }
              if checksumOf b.data = b.storedChecksum then
                (Except.ok b.data,
                 { h' with slots := slotSet h'.slots k { slot with cache := some b.data } })
              else
                (Except.error AccessErr.BlockIntegrityError, h')

/-- Element read `handle[k][i]`: materialize the array, then index. -/
def readElem (h : OpenHandle) (k : String) (i : Nat) : Except AccessErr Nat × OpenHandle :=
  match materialize h k with
  | (Except.error e, h') => (Except.error e, h')
  | (Except.ok d, h') =>
      match d.get? i with
      | some v => (Except.ok v, h')
      | none => (Except.error AccessErr.IndexOutOfRange, h')

/-- Modelled from the spec (§3 FileImage, §7 ReadOnlyViolation): element
mutation `handle[k][i] = v`.  On a readonly handle it fails with
`ReadOnlyViolation` and changes nothing.  In update mode the array is
materialized, the element is written in place into both the cached view
and the mapped block bytes, without rewriting the whole file. -/
def setElem (h : OpenHandle) (k : String) (i : Nat) (v : Nat) : Except AccessErr Unit × OpenHandle :=
  match h.mode with
  | Mode.readonly => (Except.error AccessErr.ReadOnlyViolation, h)
  | Mode.update =>
      match materialize h k with
      | (Except.error e, h') => (Except.error e, h')
      | (Except.ok d, h') =>
          if i < d.length then
            match h'.slots.lookup k with
            | some slot =>
                (Except.ok (),
                 { h' with
                     slots := slotSet h'.slots k { slot with cache := some (d.set i v) },
                     disk := { h'.disk with
                                 diskBlocks := blockSet h'.disk.diskBlocks slot.source (d.set i v) } })
            | none => (Except.error AccessErr.KeyNotFound, h')
          else (Except.error AccessErr.IndexOutOfRange, h')

/-- Invariant tying one encode pass to the replaying decode pass, stated
against the final block list `B` and the set `arrs` of array objects of
the tree being encoded: every identity registered in the encoder's
identity map is an array of the tree whose payload block is at the
registered source index of `B`, and the decoder's anchor map sends that
identity to the decoded shared array object. -/
def InvMap (arrs : List ArrayObj) (B : List Block) (blockOf : List (Nat × Nat))
    (amap : List (Nat × Node)) : Prop :=
  ∀ oid s, blockOf.lookup oid = some s →
    ∃ a : ArrayObj, a ∈ arrs ∧ a.oid = oid ∧ B.get? s = some ⟨0, a.data⟩ ∧
      amap.lookup oid = some (Node.arr a)

/-! ## Theorems -/

/-- Element lookup just past a list places the appended element. -/
theorem get?_append_cons {α : Type} (l₁ l₂ : List α) (x : α) :
    (l₁ ++ x :: l₂).get? l₁.length = some x := by
  rw [List.get?_eq_getElem?, List.getElem?_append_right (Nat.le_refl _)]
  simp

/-- The shape serialization parses back to the same list. -/
theorem parseNatList_map (l : List Nat) :
    parseNatList (l.map fun n => TextNode.scalar (Scalar.int (Int.ofNat n))) = some l := by
  induction l with
  | nil => rfl
  | cons a t ih =>
      have hstep :
          parseNatList ((a :: t).map fun n => TextNode.scalar (Scalar.int (Int.ofNat n))) =
            (parseNatList (t.map fun n => TextNode.scalar (Scalar.int (Int.ofNat n)))).bind
              fun l => some (a :: l) := rfl
      rw [hstep, ih]
      rfl

/-- The array body serialization parses back to its source and shape. -/
theorem parseNdarray_ndarrayText (src : Nat) (shape : List Nat) :
    parseNdarray (ndarrayText src shape) = some (src, shape) := by
  have hstep : parseNdarray (ndarrayText src shape) =
      (parseNatList (shape.map fun n => TextNode.scalar (Scalar.int (Int.ofNat n)))).bind
        fun sh => some (src, sh) := rfl
  rw [hstep, parseNatList_map]
  rfl

/-- Every string contains itself as a substring. -/
theorem strContains_self (s : String) : strContains s s = true := by
  simp only [strContains, List.any_eq_true]
  exact ⟨s.toList, (List.mem_tails _ _).mpr (List.suffix_refl _),
    (List.isPrefixOf_iff_prefix).mpr (List.prefix_refl _)⟩

/-- After an ordered-insertion update, looking the key up finds the new
value. -/
theorem lookup_mapSet_self : ∀ (es : List (String × Node)) (k : String) (v : Node),
    (mapSet es k v).lookup k = some v
  | [], k, v => by simp [mapSet, List.lookup]
  | (k', v') :: rest, k, v => by
      cases h : k' == k with
      | true =>
          have hk := eq_of_beq h
          subst hk
          simp [mapSet, List.lookup]
      | false =>
          have hke : (k == k') = false := by
            rw [beq_eq_false_iff_ne]
            intro e
            subst e
            simp at h
          simp [mapSet, h, List.lookup, hke, lookup_mapSet_self rest k v]

/-- After a slot update at a present key, looking the key up finds the
new slot. -/
theorem lookup_slotSet_self : ∀ (l : List (String × LazySlot)) (k : String) (s₀ s : LazySlot),
    l.lookup k = some s₀ → (slotSet l k s).lookup k = some s
  | [], k, s₀, s, h => by simp [List.lookup] at h
  | (k', x) :: rest, k, s₀, s, h => by
      cases hk : k' == k with
      | true =>
          have := eq_of_beq hk
          subst this
          simp [slotSet, List.lookup]
      | false =>
          have hke : (k == k') = false := by
            rw [beq_eq_false_iff_ne]
            intro e
            subst e
            simp at hk
          simp [List.lookup, hke] at h
          simp [slotSet, hk, List.lookup, hke]
          exact lookup_slotSet_self rest k s₀ s h

/-- Looking up a key in a value-mapped association list maps the
original lookup. -/
theorem lookup_map_snd : ∀ (l : List (String × Nat)) (k : String) (f : Nat → LazySlot),
    (l.map fun p => (p.1, f p.2)).lookup k = (l.lookup k).map f
  | [], _, _ => by simp [List.lookup]
  | (k', x) :: rest, k, f => by
      cases hk : k == k' with
      | true => simp [List.lookup, hk]
      | false => simp [List.lookup, hk, lookup_map_snd rest k f]

mutual

/-- An encode step only appends to the block list. -/
theorem encNode_blocks_mono : ∀ (n : Node) (st : EncSt) (t : TextNode) (st' : EncSt),
    encNode n st = some (t, st') → ∃ d, st'.blocks = st.blocks ++ d
  | Node.scalar v, st, t, st', h => by
      simp only [encNode, Option.some.injEq, Prod.mk.injEq] at h
      exact ⟨[], by rw [← h.2]; simp⟩
  | Node.seq items, st, t, st', h => by
      simp only [encNode, Option.bind_eq_some, Option.some.injEq, Prod.mk.injEq] at h
      obtain ⟨⟨ts, st1⟩, hl, _, hst⟩ := h
      exact hst ▸ encList_blocks_mono items st ts st1 hl
  | Node.map entries, st, t, st', h => by
      simp only [encNode, Option.bind_eq_some, Option.some.injEq, Prod.mk.injEq] at h
      obtain ⟨⟨ts, st1⟩, hl, _, hst⟩ := h
      exact hst ▸ encEntries_blocks_mono entries st ts st1 hl
  | Node.arr a, st, t, st', h => by
      simp only [encNode] at h
      cases hl : st.blockOf.lookup a.oid with
      | some s =>
          rw [hl] at h
          simp only [Option.some.injEq, Prod.mk.injEq] at h
          exact ⟨[], by rw [← h.2]; simp⟩
      | none =>
          rw [hl] at h
          simp only [Option.some.injEq, Prod.mk.injEq] at h
          exact ⟨[⟨0, a.data⟩], by rw [← h.2]⟩
  | Node.typed tag ver payload, st, t, st', h => by
      simp only [encNode, Option.bind_eq_some, Option.some.injEq, Prod.mk.injEq] at h
      obtain ⟨⟨tp, st1⟩, hp, _, hst⟩ := h
      exact hst ▸ encNode_blocks_mono payload st tp st1 hp
  | Node.raw tag ver payload, st, t, st', h => by
      simp only [encNode, Option.bind_eq_some, Option.some.injEq, Prod.mk.injEq] at h
      obtain ⟨⟨tp, st1⟩, hp, _, hst⟩ := h
      exact hst ▸ encNode_blocks_mono payload st tp st1 hp
  | Node.unsupported d, st, t, st', h => by simp [encNode] at h

/-- A sequence encode step only appends to the block list. -/
theorem encList_blocks_mono : ∀ (l : List Node) (st : EncSt) (ts : List TextNode) (st' : EncSt),
    encList l st = some (ts, st') → ∃ d, st'.blocks = st.blocks ++ d
  | [], st, ts, st', h => by
      simp only [encList, Option.some.injEq, Prod.mk.injEq] at h
      exact ⟨[], by rw [← h.2]; simp⟩
  | n :: rest, st, ts, st', h => by
      simp only [encList, Option.bind_eq_some, Option.some.injEq, Prod.mk.injEq] at h
      obtain ⟨⟨t1, st1⟩, h1, ⟨ts2, st2⟩, h2, _, hst⟩ := h
      obtain ⟨d1, hd1⟩ := encNode_blocks_mono n st t1 st1 h1
      obtain ⟨d2, hd2⟩ := encList_blocks_mono rest st1 ts2 st2 h2
      exact ⟨d1 ++ d2, by rw [← hst, hd2, hd1, List.append_assoc]⟩

/-- A mapping-entry encode step only appends to the block list. -/
theorem encEntries_blocks_mono : ∀ (l : List (String × Node)) (st : EncSt)
    (ts : List (String × TextNode)) (st' : EncSt),
    encEntries l st = some (ts, st') → ∃ d, st'.blocks = st.blocks ++ d
  | [], st, ts, st', h => by
      simp only [encEntries, Option.some.injEq, Prod.mk.injEq] at h
      exact ⟨[], by rw [← h.2]; simp⟩
  | (k, n) :: rest, st, ts, st', h => by
      simp only [encEntries, Option.bind_eq_some, Option.some.injEq, Prod.mk.injEq] at h
      obtain ⟨⟨t1, st1⟩, h1, ⟨ts2, st2⟩, h2, _, hst⟩ := h
      obtain ⟨d1, hd1⟩ := encNode_blocks_mono n st t1 st1 h1
      obtain ⟨d2, hd2⟩ := encEntries_blocks_mono rest st1 ts2 st2 h2
      exact ⟨d1 ++ d2, by rw [← hst, hd2, hd1, List.append_assoc]⟩

end

mutual

/-- Encoding succeeds on every representable tree. -/
theorem encNode_total : ∀ (reg : TagReg) (n : Node) (st : EncSt),
    repOK reg n = true → ∃ p, encNode n st = some p
  | reg, Node.scalar v, st, _ => ⟨(TextNode.scalar v, st), rfl⟩
  | reg, Node.seq items, st, h => by
      simp only [repOK] at h
      obtain ⟨⟨ts, st'⟩, hl⟩ := encList_total reg items st h
      exact ⟨(TextNode.seq ts, st'), by simp [encNode, hl]⟩
  | reg, Node.map entries, st, h => by
      simp only [repOK] at h
      obtain ⟨⟨ts, st'⟩, hl⟩ := encEntries_total reg entries st h
      exact ⟨(TextNode.map ts, st'), by simp [encNode, hl]⟩
  | reg, Node.arr a, st, _ => by
      cases hl : st.blockOf.lookup a.oid with
      | some s => exact ⟨(TextNode.alias a.oid, st), by simp [encNode, hl]⟩
      | none =>
          exact ⟨(TextNode.anchor a.oid
                    (TextNode.tagged ndarrayTag 1 (ndarrayText st.blocks.length a.shape)),
                  ⟨st.blocks ++ [⟨0, a.data⟩], (a.oid, st.blocks.length) :: st.blockOf⟩),
                 by simp [encNode, hl]⟩
  | reg, Node.typed tag ver payload, st, h => by
      simp only [repOK, Bool.and_eq_true] at h
      obtain ⟨⟨tp, st'⟩, hp⟩ := encNode_total reg payload st h.2
      exact ⟨(TextNode.tagged tag ver tp, st'), by simp [encNode, hp]⟩
  | reg, Node.raw tag ver payload, st, h => by
      simp only [repOK, Bool.and_eq_true] at h
      obtain ⟨⟨tp, st'⟩, hp⟩ := encNode_total reg payload st h.2
      exact ⟨(TextNode.tagged tag ver tp, st'), by simp [encNode, hp]⟩
  | reg, Node.unsupported d, st, h => by simp [repOK] at h

/-- Encoding succeeds on every representable sequence. -/
theorem encList_total : ∀ (reg : TagReg) (l : List Node) (st : EncSt),
    repOKList reg l = true → ∃ p, encList l st = some p
  | reg, [], st, _ => ⟨([], st), rfl⟩
  | reg, n :: rest, st, h => by
      simp only [repOKList, Bool.and_eq_true] at h
      obtain ⟨⟨t1, st1⟩, h1⟩ := encNode_total reg n st h.1
      obtain ⟨⟨ts2, st2⟩, h2⟩ := encList_total reg rest st1 h.2
      exact ⟨(t1 :: ts2, st2), by simp [encList, h1, h2]⟩

/-- Encoding succeeds on every representable set of mapping entries. -/
theorem encEntries_total : ∀ (reg : TagReg) (l : List (String × Node)) (st : EncSt),
    repOKEntries reg l = true → ∃ p, encEntries l st = some p
  | reg, [], st, _ => ⟨([], st), rfl⟩
  | reg, (k, n) :: rest, st, h => by
      simp only [repOKEntries, Bool.and_eq_true] at h
      obtain ⟨⟨t1, st1⟩, h1⟩ := encNode_total reg n st h.1
      obtain ⟨⟨ts2, st2⟩, h2⟩ := encEntries_total reg rest st1 h.2
      exact ⟨((k, t1) :: ts2, st2), by simp [encEntries, h1, h2]⟩

end

/-- The Boolean identity-coherence check implies the propositional one. -/
theorem coherent_spec (t : Node) (h : coherent t = true) :
    ∀ a ∈ arraysOf t, ∀ b ∈ arraysOf t, a.oid = b.oid → a = b := by
  intro a ha b hb hab
  simp only [coherent, List.all_eq_true] at h
  have h2 := h a ha b hb
  rw [Bool.or_eq_true] at h2
  cases h2 with
  | inl h3 => exact absurd hab (bne_iff_ne.mp h3)
  | inr h3 => exact eq_of_beq h3

mutual

/-- Replay lemma: decoding the text produced for a representable node
(against the final block list of the pass) yields the node back, and
the encoder's identity map and the decoder's anchor map stay in
correspondence. -/
theorem encDecNode : ∀ (reg : TagReg) (arrs : List ArrayObj) (B : List Block) (n : Node)
    (st st' : EncSt) (t : TextNode) (amap : List (Nat × Node)),
    (∀ a ∈ arrs, ∀ b ∈ arrs, a.oid = b.oid → a = b) →
    repOK reg n = true →
    (∀ a ∈ arraysOf n, a ∈ arrs) →
    (∃ tail, st'.blocks ++ tail = B) →
    InvMap arrs B st.blockOf amap →
    encNode n st = some (t, st') →
    ∃ amap', decNode reg B t ⟨amap⟩ = some (n, ⟨amap'⟩) ∧ InvMap arrs B st'.blockOf amap'
  | reg, arrs, B, Node.scalar v, st, st', t, amap, hcoh, hrep, hsub, hB, hinv, henc => by
      simp only [encNode, Option.some.injEq, Prod.mk.injEq] at henc
      obtain ⟨ht, hst⟩ := henc
      subst ht
      subst hst
      exact ⟨amap, by simp [decNode], hinv⟩
  | reg, arrs, B, Node.seq items, st, st', t, amap, hcoh, hrep, hsub, hB, hinv, henc => by
      simp only [encNode, Option.bind_eq_some, Option.some.injEq, Prod.mk.injEq] at henc
      obtain ⟨⟨ts, st1⟩, hl, ht, hst⟩ := henc
      subst ht
      subst hst
      simp only [repOK] at hrep
      simp only [arraysOf] at hsub
      obtain ⟨amap', hdec, hinv'⟩ :=
        encDecList reg arrs B items st st1 ts amap hcoh hrep hsub hB hinv hl
      exact ⟨amap', by simp [decNode, hdec], hinv'⟩
  | reg, arrs, B, Node.map entries, st, st', t, amap, hcoh, hrep, hsub, hB, hinv, henc => by
      simp only [encNode, Option.bind_eq_some, Option.some.injEq, Prod.mk.injEq] at henc
      obtain ⟨⟨ts, st1⟩, hl, ht, hst⟩ := henc
      subst ht
      subst hst
      simp only [repOK] at hrep
      simp only [arraysOf] at hsub
      obtain ⟨amap', hdec, hinv'⟩ :=
        encDecEntries reg arrs B entries st st1 ts amap hcoh hrep hsub hB hinv hl
      exact ⟨amap', by simp [decNode, hdec], hinv'⟩
  | reg, arrs, B, Node.arr a, st, st', t, amap, hcoh, hrep, hsub, hB, hinv, henc => by
      have hamem : a ∈ arrs := hsub a (by simp [arraysOf])
      simp only [encNode] at henc
      cases hl : st.blockOf.lookup a.oid with
      | some s =>
          rw [hl] at henc
          simp only [Option.some.injEq, Prod.mk.injEq] at henc
          obtain ⟨ht, hst⟩ := henc
          subst ht
          subst hst
          obtain ⟨a', ha'mem, ha'oid, hBs, hamap⟩ := hinv a.oid s hl
          have haa : a' = a := hcoh a' ha'mem a hamem ha'oid
          subst haa
          exact ⟨amap, by simp [decNode, hamap], hinv⟩
      | none =>
          rw [hl] at henc
          simp only [Option.some.injEq, Prod.mk.injEq] at henc
          obtain ⟨ht, hst⟩ := henc
          subst ht
          subst hst
          obtain ⟨tail, htail⟩ := hB
          have hBget : B.get? st.blocks.length = some ⟨0, a.data⟩ := by
            rw [← htail]
            show ((st.blocks ++ [(⟨0, a.data⟩ : Block)]) ++ tail).get? st.blocks.length =
              some ⟨0, a.data⟩
            rw [List.append_assoc, List.singleton_append]
            exact get?_append_cons st.blocks tail ⟨0, a.data⟩
          have hBget' := hBget
          rw [List.get?_eq_getElem?] at hBget'
          refine ⟨(a.oid, Node.arr a) :: amap, ?_, ?_⟩
          · obtain ⟨aoid, ashape, adata⟩ := a
            simp [decNode, parseNdarray_ndarrayText, hBget']
          · intro oid s hlk
            simp only [List.lookup] at hlk
            cases hoe : oid == a.oid with
            | true =>
                rw [hoe] at hlk
                simp only [Option.some.injEq] at hlk
                have hoid : oid = a.oid := eq_of_beq hoe
                subst hoid
                subst hlk
                exact ⟨a, hamem, rfl, hBget, by simp [List.lookup]⟩
            | false =>
                rw [hoe] at hlk
                obtain ⟨a', ha'mem, ha'oid, hBs, hamap⟩ := hinv oid s hlk
                exact ⟨a', ha'mem, ha'oid, hBs, by simp [List.lookup, hoe, hamap]⟩
  | reg, arrs, B, Node.typed tag ver payload, st, st', t, amap, hcoh, hrep, hsub, hB, hinv, henc => by
      simp only [encNode, Option.bind_eq_some, Option.some.injEq, Prod.mk.injEq] at henc
      obtain ⟨⟨tp, st1⟩, hp, ht, hst⟩ := henc
      subst ht
      subst hst
      simp only [repOK, Bool.and_eq_true] at hrep
      obtain ⟨⟨hne, hres⟩, hrepp⟩ := hrep
      simp only [arraysOf] at hsub
      obtain ⟨amap', hdecp, hinv'⟩ :=
        encDecNode reg arrs B payload st st1 tp amap hcoh hrepp hsub hB hinv hp
      obtain ⟨c, hc⟩ := Option.isSome_iff_exists.mp hres
      exact ⟨amap', by simp [decNode, bne_iff_ne.mp hne, hdecp, hc], hinv'⟩
  | reg, arrs, B, Node.raw tag ver payload, st, st', t, amap, hcoh, hrep, hsub, hB, hinv, henc => by
      simp only [encNode, Option.bind_eq_some, Option.some.injEq, Prod.mk.injEq] at henc
      obtain ⟨⟨tp, st1⟩, hp, ht, hst⟩ := henc
      subst ht
      subst hst
      simp only [repOK, Bool.and_eq_true] at hrep
      obtain ⟨⟨hne, hres⟩, hrepp⟩ := hrep
      simp only [arraysOf] at hsub
      obtain ⟨amap', hdecp, hinv'⟩ :=
        encDecNode reg arrs B payload st st1 tp amap hcoh hrepp hsub hB hinv hp
      have hnone : resolve reg tag ver = none := Option.isNone_iff_eq_none.mp hres
      exact ⟨amap', by simp [decNode, bne_iff_ne.mp hne, hdecp, hnone], hinv'⟩
  | reg, arrs, B, Node.unsupported d, st, st', t, amap, hcoh, hrep, hsub, hB, hinv, henc => by
      simp [encNode] at henc

/-- Replay lemma for sequences. -/
theorem encDecList : ∀ (reg : TagReg) (arrs : List ArrayObj) (B : List Block) (l : List Node)
    (st st' : EncSt) (ts : List TextNode) (amap : List (Nat × Node)),
    (∀ a ∈ arrs, ∀ b ∈ arrs, a.oid = b.oid → a = b) →
    repOKList reg l = true →
    (∀ a ∈ arraysOfList l, a ∈ arrs) →
    (∃ tail, st'.blocks ++ tail = B) →
    InvMap arrs B st.blockOf amap →
    encList l st = some (ts, st') →
    ∃ amap', decList reg B ts ⟨amap⟩ = some (l, ⟨amap'⟩) ∧ InvMap arrs B st'.blockOf amap'
  | reg, arrs, B, [], st, st', ts, amap, hcoh, hrep, hsub, hB, hinv, henc => by
      simp only [encList, Option.some.injEq, Prod.mk.injEq] at henc
      obtain ⟨hts, hst⟩ := henc
      subst hts
      subst hst
      exact ⟨amap, by simp [decList], hinv⟩
  | reg, arrs, B, n :: rest, st, st', ts, amap, hcoh, hrep, hsub, hB, hinv, henc => by
      simp only [encList, Option.bind_eq_some, Option.some.injEq, Prod.mk.injEq] at henc
      obtain ⟨⟨t1, st1⟩, h1, ⟨ts2, st2⟩, h2, hcons, hst⟩ := henc
      subst hcons
      subst hst
      simp only [repOKList, Bool.and_eq_true] at hrep
      simp only [arraysOfList] at hsub
      have hB1 : ∃ tail, st1.blocks ++ tail = B := by
        obtain ⟨d2, hd2⟩ := encList_blocks_mono rest st1 ts2 st2 h2
        obtain ⟨tail, htail⟩ := hB
        exact ⟨d2 ++ tail, by rw [← List.append_assoc, ← hd2, htail]⟩
      obtain ⟨amap1, hdec1, hinv1⟩ :=
        encDecNode reg arrs B n st st1 t1 amap hcoh hrep.1
          (fun a ha => hsub a (List.mem_append_left _ ha)) hB1 hinv h1
      obtain ⟨amap2, hdec2, hinv2⟩ :=
        encDecList reg arrs B rest st1 st2 ts2 amap1 hcoh hrep.2
          (fun a ha => hsub a (List.mem_append_right _ ha)) hB hinv1 h2
      exact ⟨amap2, by simp [decList, hdec1, hdec2], hinv2⟩

/-- Replay lemma for mapping entries. -/
theorem encDecEntries : ∀ (reg : TagReg) (arrs : List ArrayObj) (B : List Block)
    (l : List (String × Node)) (st st' : EncSt) (ts : List (String × TextNode))
    (amap : List (Nat × Node)),
    (∀ a ∈ arrs, ∀ b ∈ arrs, a.oid = b.oid → a = b) →
    repOKEntries reg l = true →
    (∀ a ∈ arraysOfEntries l, a ∈ arrs) →
    (∃ tail, st'.blocks ++ tail = B) →
    InvMap arrs B st.blockOf amap →
    encEntries l st = some (ts, st') →
    ∃ amap', decEntries reg B ts ⟨amap⟩ = some (l, ⟨amap'⟩) ∧ InvMap arrs B st'.blockOf amap'
  | reg, arrs, B, [], st, st', ts, amap, hcoh, hrep, hsub, hB, hinv, henc => by
      simp only [encEntries, Option.some.injEq, Prod.mk.injEq] at henc
      obtain ⟨hts, hst⟩ := henc
      subst hts
      subst hst
      exact ⟨amap, by simp [decEntries], hinv⟩
  | reg, arrs, B, (k, n) :: rest, st, st', ts, amap, hcoh, hrep, hsub, hB, hinv, henc => by
      simp only [encEntries, Option.bind_eq_some, Option.some.injEq, Prod.mk.injEq] at henc
      obtain ⟨⟨t1, st1⟩, h1, ⟨ts2, st2⟩, h2, hcons, hst⟩ := henc
      subst hcons
      subst hst
      simp only [repOKEntries, Bool.and_eq_true] at hrep
      simp only [arraysOfEntries] at hsub
      have hB1 : ∃ tail, st1.blocks ++ tail = B := by
        obtain ⟨d2, hd2⟩ := encEntries_blocks_mono rest st1 ts2 st2 h2
        obtain ⟨tail, htail⟩ := hB
        exact ⟨d2 ++ tail, by rw [← List.append_assoc, ← hd2, htail]⟩
      obtain ⟨amap1, hdec1, hinv1⟩ :=
        encDecNode reg arrs B n st st1 t1 amap hcoh hrep.1
          (fun a ha => hsub a (List.mem_append_left _ ha)) hB1 hinv h1
      obtain ⟨amap2, hdec2, hinv2⟩ :=
        encDecEntries reg arrs B rest st1 st2 ts2 amap1 hcoh hrep.2
          (fun a ha => hsub a (List.mem_append_right _ ha)) hB hinv1 h2
      exact ⟨amap2, by simp [decEntries, hdec1, hdec2], hinv2⟩

end

/-- A list is a prefix (as a Boolean check) of itself followed by
anything. -/
theorem isPrefixOf_append_self (p r : List Nat) : p.isPrefixOf (p ++ r) = true := by
  rw [List.isPrefixOf_iff_prefix]
  exact List.prefix_append p r

/-- A Boolean prefix check against an append only depends on the first
part when the pattern fits inside it. -/
theorem isPrefixOf_append_of_le (p a b : List Nat) (h : p.length ≤ a.length) :
    p.isPrefixOf (a ++ b) = p.isPrefixOf a := by
  rcases hp : p.isPrefixOf a with _ | _
  · rcases hq : p.isPrefixOf (a ++ b) with _ | _
    · rfl
    · exfalso
      rw [List.isPrefixOf_iff_prefix, List.prefix_iff_eq_take] at hq
      rw [List.take_append_eq_append_take] at hq
      have h0 : p.length - a.length = 0 := by omega
      rw [h0] at hq
      simp at hq
      rw [Bool.eq_false_iff] at hp
      apply hp
      rw [List.isPrefixOf_iff_prefix, List.prefix_iff_eq_take]
      exact hq
  · rw [List.isPrefixOf_iff_prefix] at hp ⊢
    exact hp.trans (List.prefix_append a b)

/-- A fixed-width field serializes to exactly its width. -/
theorem natBytesLE_length : ∀ (w n : Nat), (natBytesLE w n).length = w
  | 0, _ => rfl
  | w + 1, n => by simp [natBytesLE, natBytesLE_length w (n / 256)]

/-- Reading back a fixed-width little-endian field recovers the value
modulo the field's capacity. -/
theorem bytesToNatLE_natBytesLE : ∀ (w n : Nat),
    bytesToNatLE (natBytesLE w n) = n % 256 ^ w
  | 0, n => by simp [natBytesLE, bytesToNatLE, Nat.mod_one]
  | w + 1, n => by
      have ih := bytesToNatLE_natBytesLE w (n / 256)
      simp only [natBytesLE, bytesToNatLE, ih]
      have hp : (256 : Nat) ^ (w + 1) = 256 * 256 ^ w := by
        rw [pow_succ, Nat.mul_comm]
      rw [hp, Nat.mod_mul]
      simp

/-- Claim C1: for every tree containing only representable node types
(and well-formed object identities), encoding succeeds and decoding the
encoding yields exactly the same tree — mapping key order, sequence
order, scalar values, array payloads and the aliasing topology (array
object identities) are all preserved. -/
theorem tree_codec_roundtrip (reg : TagReg) (T : Node)
    (h1 : repOK reg T = true) (h2 : coherent T = true) :
    ∃ text blocks, encodeTree T = some (text, blocks) ∧
      decodeTree reg text blocks = some T := by
  obtain ⟨⟨text, stF⟩, henc⟩ := encNode_total reg T ⟨[], []⟩ h1
  refine ⟨text, stF.blocks, ?_, ?_⟩
  · simp [encodeTree, henc]
  · have hcoh := coherent_spec T h2
    have hinv : InvMap (arraysOf T) stF.blocks [] [] := by
      intro oid s hlk
      simp [List.lookup] at hlk
    obtain ⟨amap', hdec, _⟩ :=
      encDecNode reg (arraysOf T) stF.blocks T ⟨[], []⟩ stF text [] hcoh h1
        (fun a ha => ha) ⟨[], by simp⟩ hinv henc
    simp [decodeTree, hdec]

/-- Witness for C1: a concrete representable tree with a shared array
(aliasing), a registered typed node and an opaque node under an
unregistered tag. -/
theorem tree_codec_roundtrip_witness :
    repOK ⟨[⟨"demo/model", 1, 2⟩]⟩
        (Node.map
          [("array_1", Node.arr ⟨11, [2], [1, 2]⟩),
           ("array_2", Node.arr ⟨11, [2], [1, 2]⟩),
           ("model", Node.typed "demo/model" 1 (Node.seq [Node.scalar (Scalar.float 34 (-1))])),
           ("mystery", Node.raw "future/thing" 5 (Node.scalar Scalar.null))]) = true ∧
    coherent
        (Node.map
          [("array_1", Node.arr ⟨11, [2], [1, 2]⟩),
           ("array_2", Node.arr ⟨11, [2], [1, 2]⟩),
           ("model", Node.typed "demo/model" 1 (Node.seq [Node.scalar (Scalar.float 34 (-1))])),
           ("mystery", Node.raw "future/thing" 5 (Node.scalar Scalar.null))]) = true ∧
    (∃ text blocks,
      encodeTree
          (Node.map
            [("array_1", Node.arr ⟨11, [2], [1, 2]⟩),
             ("array_2", Node.arr ⟨11, [2], [1, 2]⟩),
             ("model", Node.typed "demo/model" 1 (Node.seq [Node.scalar (Scalar.float 34 (-1))])),
             ("mystery", Node.raw "future/thing" 5 (Node.scalar Scalar.null))]) =
        some (text, blocks) ∧
      decodeTree ⟨[⟨"demo/model", 1, 2⟩]⟩ text blocks =
        some (Node.map
          [("array_1", Node.arr ⟨11, [2], [1, 2]⟩),
           ("array_2", Node.arr ⟨11, [2], [1, 2]⟩),
           ("model", Node.typed "demo/model" 1 (Node.seq [Node.scalar (Scalar.float 34 (-1))])),
           ("mystery", Node.raw "future/thing" 5 (Node.scalar Scalar.null))])) :=
  ⟨by decide, by decide,
   tree_codec_roundtrip ⟨[⟨"demo/model", 1, 2⟩]⟩ _ (by decide) (by decide)⟩

/-- Claim C7: encoding the tree with entries number = 6.0 and
list = [1, 4, 9, 16] produces a textual segment whose root mapping has
exactly those two entries in that order and no Blocks, and decoding that
segment (against any registry) yields back the same two keys in the same
order with the same values. -/
theorem example_tree_roundtrip (reg : TagReg) :
    encodeTree (Node.map
      [("number", Node.scalar (Scalar.float 6 0)),
       ("list", Node.seq [Node.scalar (Scalar.int 1), Node.scalar (Scalar.int 4),
                          Node.scalar (Scalar.int 9), Node.scalar (Scalar.int 16)])]) =
      some (TextNode.map
        [("number", TextNode.scalar (Scalar.float 6 0)),
         ("list", TextNode.seq [TextNode.scalar (Scalar.int 1), TextNode.scalar (Scalar.int 4),
                                TextNode.scalar (Scalar.int 9), TextNode.scalar (Scalar.int 16)])],
        []) ∧
    decodeTree reg
      (TextNode.map
        [("number", TextNode.scalar (Scalar.float 6 0)),
         ("list", TextNode.seq [TextNode.scalar (Scalar.int 1), TextNode.scalar (Scalar.int 4),
                                TextNode.scalar (Scalar.int 9), TextNode.scalar (Scalar.int 16)])]) [] =
      some (Node.map
        [("number", Node.scalar (Scalar.float 6 0)),
         ("list", Node.seq [Node.scalar (Scalar.int 1), Node.scalar (Scalar.int 4),
                            Node.scalar (Scalar.int 9), Node.scalar (Scalar.int 16)])]) :=
  ⟨rfl, rfl⟩

/-- Claim C9: assigning through the file handle (`handle[k] = v`) is
observably equivalent to assigning through its tree
(`handle.tree[k] = v`): both produce the same handle state, and
subsequent reads through either access path return the assigned value. -/
theorem handle_assign_equiv (h : Handle) (k : String) (v : Node)
    (hm : isMap h.tree = true) :
    handleSetItem h k v = handleTreeAssign h k v ∧
    handleGetItem (handleSetItem h k v) k = some v ∧
    treeGet (handleTreeAssign h k v).tree k = some v := by
  obtain ⟨t, im⟩ := h
  cases t with
  | map entries =>
      refine ⟨rfl, ?_, ?_⟩ <;>
        simp [handleSetItem, handleTreeAssign, handleGetItem, treeSet, treeGet,
          lookup_mapSet_self]
  | scalar v' => simp [isMap] at hm
  | seq items => simp [isMap] at hm
  | arr a => simp [isMap] at hm
  | typed tag ver p => simp [isMap] at hm
  | raw tag ver p => simp [isMap] at hm
  | unsupported d => simp [isMap] at hm

/-- Claim C10: `open` called without an explicit mode argument uses the
configured default mode, which is readonly — the resulting handle is
exactly the readonly-opened handle, and element mutation through it
fails with `ReadOnlyViolation`, exactly as if readonly had been passed. -/
theorem default_open_readonly (d : DiskFile) (k : String) (i v : Nat) :
    openDefault d = openFile d Mode.readonly ∧
    setElem (openDefault d) k i v =
      (Except.error AccessErr.ReadOnlyViolation, openDefault d) ∧
    setElem (openFile d Mode.readonly) k i v =
      (Except.error AccessErr.ReadOnlyViolation, openFile d Mode.readonly) :=
  ⟨rfl, rfl, rfl⟩

/-- Claim C4: opening a file reads the textual segment and the block
index only — no block payload read appears in the open log, for either
mode, even when a block is corrupt (open succeeds unconditionally); and
the first access of an array whose block's payload does not match its
recorded checksum fails with `BlockIntegrityError`. -/
theorem lazy_load_block_integrity (d : DiskFile) (m : Mode) (k : String) (s : Nat)
    (b : StoredBlock)
    (hk : d.arrayKeys.lookup k = some s)
    (hb : d.diskBlocks.get? s = some b)
    (hcorrupt : checksumOf b.data ≠ b.storedChecksum) :
    (∀ i, IoEvent.readBlock i ∉ (openFile d m).ioLog) ∧
    (materialize (openFile d m) k).1 = Except.error AccessErr.BlockIntegrityError := by
  constructor
  · intro i
    simp [openFile]
  · have hslot : (d.arrayKeys.map fun p => (p.1, LazySlot.mk p.2 none)).lookup k =
        some ⟨s, none⟩ := by
      rw [lookup_map_snd d.arrayKeys k (fun x => LazySlot.mk x none), hk]
      rfl
    rw [List.get?_eq_getElem?] at hb
    simp [materialize, openFile, hslot, hb, hcorrupt]

/-- Claim C2: assigning the same in-memory array object (same reference
identity) to two distinct keys and writing stores exactly one Block,
and the textual segment holds two references to it — one anchor at the
first key and one alias at the second; decoding that output yields two
tree positions sharing a single array identity. -/
theorem dedup_anchor_alias (reg : TagReg) (a : ArrayObj) (k1 k2 : String)
    (hk : k1 ≠ k2) :
    encodeTree (Node.map [(k1, Node.arr a), (k2, Node.arr a)]) =
      some (TextNode.map
              [(k1, TextNode.anchor a.oid
                      (TextNode.tagged ndarrayTag 1 (ndarrayText 0 a.shape))),
               (k2, TextNode.alias a.oid)],
            [⟨0, a.data⟩]) ∧
    decodeTree reg
      (TextNode.map
        [(k1, TextNode.anchor a.oid
                (TextNode.tagged ndarrayTag 1 (ndarrayText 0 a.shape))),
         (k2, TextNode.alias a.oid)])
      [⟨0, a.data⟩] =
      some (Node.map [(k1, Node.arr a), (k2, Node.arr a)]) := by
  obtain ⟨aoid, ashape, adata⟩ := a
  constructor
  · simp [encodeTree, encNode, encEntries, List.lookup]
  · simp [decodeTree, decNode, decEntries, parseNdarray_ndarrayText, List.lookup]

/-- Claim C5: decoding a textual mapping whose first entry is a
TypedNode with a tag the registry does not resolve does not abort: the
unresolved node is preserved as an opaque raw node, the sibling entry
decodes normally, and `search` still finds the sibling key. -/
theorem unknown_tag_opaque_decode (reg : TagReg) (B : List Block)
    (k1 k2 tag : String) (ver : Nat) (body t2 : TextNode)
    (amap : List (Nat × Node)) (b' n2 : Node) (d1 d2 : DecSt)
    (hres : resolve reg tag ver = none) (hnd : tag ≠ ndarrayTag)
    (hbody : decNode reg B body ⟨amap⟩ = some (b', d1))
    (ht2 : decNode reg B t2 d1 = some (n2, d2)) :
    decNode reg B (TextNode.map [(k1, TextNode.tagged tag ver body), (k2, t2)]) ⟨amap⟩ =
      some (Node.map [(k1, Node.raw tag ver b'), (k2, n2)], d2) ∧
    [k2] ∈ search (Node.map [(k1, Node.raw tag ver b'), (k2, n2)]) k2 := by
  constructor
  · simp [decNode, decEntries, hnd, hbody, hres, ht2]
  · simp [search, searchNode, searchEntries, strContains_self]

/-- Claim C8: for a handle whose tree is unchanged between two write
calls (a write pass never modifies the tree), the two writes produce
byte-identical output streams — the traversal-scoped identity map left
by the first pass is cleared at the start of the second. -/
theorem write_idempotent (h : Handle) (out : Option (List Nat)) (h1 : Handle)
    (hw : writePass h = (out, h1)) :
    h1.tree = h.tree ∧ (writePass h1).1 = out := by
  obtain ⟨tr, im⟩ := h
  unfold writePass at hw
  cases he : encNode tr ⟨[], []⟩ with
  | none =>
      rw [he] at hw
      injection hw with ho hh
      subst ho
      subst hh
      exact ⟨rfl, by simp [writePass, he]⟩
  | some p =>
      obtain ⟨t, st⟩ := p
      rw [he] at hw
      injection hw with ho hh
      subst ho
      subst hh
      exact ⟨rfl, by simp [writePass, he]⟩

/-- Claim C3: element mutation of a lazily loaded array on a handle
opened readonly fails with `ReadOnlyViolation` and leaves the handle
(and so the array) unchanged; the identical mutation on a handle opened
in update mode succeeds, and the new value is observed on an immediate
re-read through the same still-open handle. -/
theorem readonly_enforcement (h : OpenHandle) (k : String) (i v : Nat)
    (slot : LazySlot) (b : StoredBlock)
    (hs : h.slots.lookup k = some slot) (hc : slot.cache = none)
    (hb : h.disk.diskBlocks.get? slot.source = some b)
    (hck : checksumOf b.data = b.storedChecksum) (hi : i < b.data.length) :
    (h.mode = Mode.readonly →
       setElem h k i v = (Except.error AccessErr.ReadOnlyViolation, h)) ∧
    (h.mode = Mode.update →
       (setElem h k i v).1 = Except.ok () ∧
       (readElem (setElem h k i v).2 k i).1 = Except.ok v) := by
  constructor
  · intro hm
    simp [setElem, hm]
  · intro hm
    rw [List.get?_eq_getElem?] at hb
    obtain ⟨ssrc, scache⟩ := slot
    simp only at hc
    subst hc
    have hs1 : (slotSet h.slots k (⟨ssrc, some b.data⟩ : LazySlot)).lookup k =
        some ⟨ssrc, some b.data⟩ := lookup_slotSet_self _ _ _ _ hs
    have hs2 : (slotSet (slotSet h.slots k (⟨ssrc, some b.data⟩ : LazySlot)) k
        (⟨ssrc, some (b.data.set i v)⟩ : LazySlot)).lookup k =
        some ⟨ssrc, some (b.data.set i v)⟩ := lookup_slotSet_self _ _ _ _ hs1
    have hget : (b.data.set i v).get? i = some v := by
      rw [List.get?_eq_getElem?]
      exact List.getElem?_set_self hi
    rw [List.get?_eq_getElem?] at hget
    constructor
    · simp [setElem, hm, materialize, hs, hb, hck, hi, hs1]
    · simp [setElem, readElem, hm, materialize, hs, hb, hck, hi, hs1, hs2, hget]

/-- Witness for C9 at a concrete handle over an empty root mapping. -/
theorem handle_assign_equiv_witness :
    handleSetItem ⟨Node.map [], []⟩ "x" (Node.scalar Scalar.null) =
      handleTreeAssign ⟨Node.map [], []⟩ "x" (Node.scalar Scalar.null) ∧
    handleGetItem (handleSetItem ⟨Node.map [], []⟩ "x" (Node.scalar Scalar.null)) "x" =
      some (Node.scalar Scalar.null) ∧
    treeGet (handleTreeAssign ⟨Node.map [], []⟩ "x" (Node.scalar Scalar.null)).tree "x" =
      some (Node.scalar Scalar.null) :=
  handle_assign_equiv ⟨Node.map [], []⟩ "x" (Node.scalar Scalar.null) rfl

/-- Witness for C4: a concrete one-array file whose block payload does
not match its recorded checksum — open performs no block read, and the
first access reports the integrity error. -/
theorem lazy_load_block_integrity_witness :
    (∀ i, IoEvent.readBlock i ∉
      (openFile ⟨[("big", 0)], [⟨[1, 2, 3], 999⟩]⟩ Mode.readonly).ioLog) ∧
    (materialize (openFile ⟨[("big", 0)], [⟨[1, 2, 3], 999⟩]⟩ Mode.readonly) "big").1 =
      Except.error AccessErr.BlockIntegrityError :=
  lazy_load_block_integrity ⟨[("big", 0)], [⟨[1, 2, 3], 999⟩]⟩ Mode.readonly "big" 0
    ⟨[1, 2, 3], 999⟩ rfl rfl (by decide)

/-- Witness for C2 at a concrete array object shared by two keys. -/
theorem dedup_anchor_alias_witness :
    encodeTree (Node.map [("a1", Node.arr ⟨7, [2], [5, 6]⟩),
                          ("a2", Node.arr ⟨7, [2], [5, 6]⟩)]) =
      some (TextNode.map
              [("a1", TextNode.anchor 7
                        (TextNode.tagged ndarrayTag 1 (ndarrayText 0 [2]))),
               ("a2", TextNode.alias 7)],
            [⟨0, [5, 6]⟩]) :=
  (dedup_anchor_alias ⟨[]⟩ ⟨7, [2], [5, 6]⟩ "a1" "a2" (by decide)).1

/-- Witness for C5: a two-key textual mapping whose first entry carries
an unregistered tag decodes to an opaque node next to a normally decoded
sibling, and search finds the sibling key. -/
theorem unknown_tag_opaque_decode_witness :
    decNode ⟨[]⟩ []
        (TextNode.map [("k1", TextNode.tagged "fancy/thing" 1 (TextNode.scalar (Scalar.int 3))),
                       ("k2", TextNode.scalar (Scalar.int 4))]) ⟨[]⟩ =
      some (Node.map [("k1", Node.raw "fancy/thing" 1 (Node.scalar (Scalar.int 3))),
                      ("k2", Node.scalar (Scalar.int 4))], ⟨[]⟩) ∧
    [("k2" : String)] ∈
      search (Node.map [("k1", Node.raw "fancy/thing" 1 (Node.scalar (Scalar.int 3))),
                        ("k2", Node.scalar (Scalar.int 4))]) "k2" :=
  unknown_tag_opaque_decode ⟨[]⟩ [] "k1" "k2" "fancy/thing" 1
    (TextNode.scalar (Scalar.int 3)) (TextNode.scalar (Scalar.int 4)) []
    (Node.scalar (Scalar.int 3)) (Node.scalar (Scalar.int 4)) ⟨[]⟩ ⟨[]⟩
    rfl (by decide) rfl rfl

/-- Witness for C8 at a concrete handle carrying a stale identity map. -/
theorem write_idempotent_witness :
    ((writePass ⟨Node.scalar (Scalar.int 1), [(9, 9)]⟩).2).tree =
      (⟨Node.scalar (Scalar.int 1), [(9, 9)]⟩ : Handle).tree ∧
    (writePass ((writePass ⟨Node.scalar (Scalar.int 1), [(9, 9)]⟩).2)).1 =
      (writePass ⟨Node.scalar (Scalar.int 1), [(9, 9)]⟩).1 :=
  write_idempotent ⟨Node.scalar (Scalar.int 1), [(9, 9)]⟩ _ _ rfl

/-- Witness for C3: a concrete intact one-array file; mutation under
update mode succeeds and the re-read observes the new value (the
readonly half is exercised on the readonly-opened sibling handle). -/
theorem readonly_enforcement_witness :
    (setElem ⟨Mode.readonly, ⟨[("data", 0)], [⟨[1, 2, 3, 4], 10⟩]⟩,
        [("data", ⟨0, none⟩)], []⟩ "data" 0 9 =
      (Except.error AccessErr.ReadOnlyViolation,
       ⟨Mode.readonly, ⟨[("data", 0)], [⟨[1, 2, 3, 4], 10⟩]⟩,
        [("data", ⟨0, none⟩)], []⟩)) ∧
    (setElem ⟨Mode.update, ⟨[("data", 0)], [⟨[1, 2, 3, 4], 10⟩]⟩,
        [("data", ⟨0, none⟩)], []⟩ "data" 0 9).1 = Except.ok () ∧
    (readElem (setElem ⟨Mode.update, ⟨[("data", 0)], [⟨[1, 2, 3, 4], 10⟩]⟩,
        [("data", ⟨0, none⟩)], []⟩ "data" 0 9).2 "data" 0).1 = Except.ok 9 :=
  ⟨(readonly_enforcement ⟨Mode.readonly, ⟨[("data", 0)], [⟨[1, 2, 3, 4], 10⟩]⟩,
        [("data", ⟨0, none⟩)], []⟩ "data" 0 9 ⟨0, none⟩ ⟨[1, 2, 3, 4], 10⟩
        rfl rfl rfl (by decide) (by decide)).1 rfl,
   (readonly_enforcement ⟨Mode.update, ⟨[("data", 0)], [⟨[1, 2, 3, 4], 10⟩]⟩,
        [("data", ⟨0, none⟩)], []⟩ "data" 0 9 ⟨0, none⟩ ⟨[1, 2, 3, 4], 10⟩
        rfl rfl rfl (by decide) (by decide)).2 rfl⟩

/-- Scanning a sentinel-free textual segment followed by the sentinel
finds the sentinel exactly at the segment's end. -/
theorem findSeqAux_sentinel : ∀ (t r : List Nat) (k : Nat), sentinelFree t = true →
    findSeqAux SENTINEL (t ++ SENTINEL ++ r) k = some (k + t.length)
  | [], r, k, _ => by
      have h : SENTINEL.isPrefixOf (SENTINEL ++ r) = true := isPrefixOf_append_self _ _
      show (if SENTINEL.isPrefixOf (SENTINEL ++ r) = true then some k
            else findSeqAux SENTINEL (([46, 46, 46, 10] : List Nat) ++ r) (k + 1)) =
        some (k + ([] : List Nat).length)
      simp [h]
  | b :: t', r, k, hsf => by
      simp only [sentinelFree, Bool.and_eq_true] at hsf
      have h1 : SENTINEL.isPrefixOf ((b :: t') ++ SENTINEL) = false := by
        have hx := hsf.1
        rw [Bool.not_eq_true'] at hx
        exact hx
      have h2 : SENTINEL.isPrefixOf ((b :: t') ++ SENTINEL ++ r) = false := by
        rw [isPrefixOf_append_of_le]
        · exact h1
        · simp [SENTINEL]
      show (if SENTINEL.isPrefixOf ((b :: t') ++ SENTINEL ++ r) = true then some k
            else findSeqAux SENTINEL (t' ++ SENTINEL ++ r) (k + 1)) = some (k + (b :: t').length)
      rw [h2]
      simp only [Bool.false_eq_true, if_false]
      rw [findSeqAux_sentinel t' r (k + 1) hsf.2]
      have : k + 1 + t'.length = k + (b :: t').length := by simp; omega
      rw [this]

/-- One raw block at the head of the stream parses off exactly, leaving
the rest to the remaining fuel. -/
theorem parseBlocksAux_step (f alg : Nat) (data R : List Nat)
    (halg : alg < 256) (hlen : data.length < 2 ^ 64) :
    parseBlocksAux (f + 1) (blockBytes ⟨alg, data⟩ ++ R) =
      (parseBlocksAux f R).bind fun p => some (⟨alg, data⟩ :: p.1, p.2) := by
  have hshape : blockBytes ⟨alg, data⟩ ++ R =
      BLOCK_MAGIC ++ ([alg % 256] ++ (natBytesLE 8 data.length ++ (data ++ R))) := by
    simp [blockBytes]
  have h1 : BLOCK_MAGIC.isPrefixOf (blockBytes ⟨alg, data⟩ ++ R) = true := by
    rw [hshape]
    exact isPrefixOf_append_self _ _
  have h2 : (blockBytes ⟨alg, data⟩ ++ R).drop 4 =
      (alg % 256) :: (natBytesLE 8 data.length ++ (data ++ R)) := by
    rw [hshape]
    rw [List.drop_left' (by simp [BLOCK_MAGIC])]
    simp
  have h3 : (natBytesLE 8 data.length ++ (data ++ R)).take 8 = natBytesLE 8 data.length :=
    List.take_left' (natBytesLE_length 8 data.length)
  have h4 : (natBytesLE 8 data.length ++ (data ++ R)).drop 8 = data ++ R :=
    List.drop_left' (natBytesLE_length 8 data.length)
  have h5 : bytesToNatLE (natBytesLE 8 data.length) = data.length := by
    rw [bytesToNatLE_natBytesLE]
    have hb : (256 : Nat) ^ 8 = 2 ^ 64 := by norm_num
    rw [hb]
    exact Nat.mod_eq_of_lt hlen
  have h6 : (data ++ R).take data.length = data := List.take_left' rfl
  have h7 : (data ++ R).drop data.length = R := List.drop_left' rfl
  simp only [parseBlocksAux, h1, h2, h3, h4, h5, h6, h7, natBytesLE_length,
    if_true, Nat.mod_eq_of_lt halg]

/-- Consecutive raw blocks parse off the stream in declaration order,
stopping exactly where the trailing bytes no longer begin with a block
magic. -/
theorem parseBlocksAux_roundtrip : ∀ (blocks : List Block) (rest : List Nat) (fuel : Nat),
    (∀ b ∈ blocks, b.alg < 256 ∧ b.data.length < 2 ^ 64) →
    blocks.length ≤ fuel →
    BLOCK_MAGIC.isPrefixOf rest = false →
    parseBlocksAux fuel ((blocks.map blockBytes).flatten ++ rest) = some (blocks, rest)
  | [], rest, fuel, _, _, hrest => by
      cases fuel with
      | zero => simp [parseBlocksAux, hrest]
      | succ f => simp [parseBlocksAux, hrest]
  | b :: bs, rest, fuel, hwf, hlen, hrest => by
      cases fuel with
      | zero => simp at hlen
      | succ f =>
          obtain ⟨balg, bdata⟩ := b
          have hwfb := hwf ⟨balg, bdata⟩ (by simp)
          have hstream : (((⟨balg, bdata⟩ : Block) :: bs).map blockBytes).flatten ++ rest =
              blockBytes ⟨balg, bdata⟩ ++ ((bs.map blockBytes).flatten ++ rest) := by
            simp [List.append_assoc]
          rw [hstream, parseBlocksAux_step f balg bdata _ hwfb.1 hwfb.2]
          rw [parseBlocksAux_roundtrip bs rest f
            (fun x hx => hwf x (List.mem_cons_of_mem _ hx)) (by simpa using hlen) hrest]
          rfl

/-- A block-index entry is exactly 20 bytes wide. -/
theorem indexEntryBytes_length (off size ck : Nat) :
    (indexEntryBytes off size ck).length = 20 := by
  simp [indexEntryBytes, natBytesLE_length]

/-- A rendered run of fixed-width index entries parses back entirely,
one parsed entry per rendered entry. -/
theorem parseIndexEntries_roundtrip : ∀ (l : List (Nat × Nat × Nat)),
    ∃ es, parseIndexEntries l.length
        ((l.map fun e => indexEntryBytes e.1 e.2.1 e.2.2).flatten) = some (es, []) ∧
      es.length = l.length
  | [] => ⟨[], rfl, rfl⟩
  | e :: rest => by
      obtain ⟨es, hp, hl⟩ := parseIndexEntries_roundtrip rest
      have h3 : ((indexEntryBytes e.1 e.2.1 e.2.2) ++
          ((rest.map fun x => indexEntryBytes x.1 x.2.1 x.2.2).flatten)).take 20 =
          indexEntryBytes e.1 e.2.1 e.2.2 :=
        List.take_left' (indexEntryBytes_length e.1 e.2.1 e.2.2)
      have h4 : ((indexEntryBytes e.1 e.2.1 e.2.2) ++
          ((rest.map fun x => indexEntryBytes x.1 x.2.1 x.2.2).flatten)).drop 20 =
          (rest.map fun x => indexEntryBytes x.1 x.2.1 x.2.2).flatten :=
        List.drop_left' (indexEntryBytes_length e.1 e.2.1 e.2.2)
      refine ⟨(bytesToNatLE ((indexEntryBytes e.1 e.2.1 e.2.2).take 8),
               bytesToNatLE (((indexEntryBytes e.1 e.2.1 e.2.2).drop 8).take 8),
               bytesToNatLE ((indexEntryBytes e.1 e.2.1 e.2.2).drop 16)) :: es, ?_, by
                 simp [hl]⟩
      simp only [List.map_cons, List.flatten_cons, List.length_cons, parseIndexEntries,
        h3, h4, hp, indexEntryBytes_length, if_true]
      simp

/-- The offset table has one offset per block. -/
theorem blockOffsets_length : ∀ (start : Nat) (blocks : List Block),
    (blockOffsets start blocks).length = blocks.length
  | _, [] => rfl
  | start, b :: bs => by
      simp [blockOffsets, blockOffsets_length (start + (blockBytes b).length) bs]

/-- The trailing block index parses back: its entry count and entry list
match the number of blocks. -/
theorem parseIndex_indexBytes (start : Nat) (blocks : List Block)
    (hcnt : blocks.length < 2 ^ 64) :
    ∃ es, parseIndex (indexBytes start blocks) = some es ∧ es.length = blocks.length := by
  have hmap : (blocks.zip (blockOffsets start blocks)).map
        (fun p => indexEntryBytes p.2 p.1.data.length (checksumOf p.1.data)) =
      ((blocks.zip (blockOffsets start blocks)).map
        (fun p => (p.2, p.1.data.length, checksumOf p.1.data))).map
        (fun e => indexEntryBytes e.1 e.2.1 e.2.2) := by
    rw [List.map_map]
    rfl
  have hzlen : ((blocks.zip (blockOffsets start blocks)).map
      (fun p => (p.2, p.1.data.length, checksumOf p.1.data))).length = blocks.length := by
    simp [List.length_zip, blockOffsets_length]
  obtain ⟨es, hp, hl⟩ := parseIndexEntries_roundtrip
    ((blocks.zip (blockOffsets start blocks)).map
      (fun p => (p.2, p.1.data.length, checksumOf p.1.data)))
  rw [hzlen] at hp hl
  have hshape : indexBytes start blocks =
      INDEX_MAGIC ++ (natBytesLE 8 blocks.length ++
        (((blocks.zip (blockOffsets start blocks)).map
          (fun p => (p.2, p.1.data.length, checksumOf p.1.data))).map
          (fun e => indexEntryBytes e.1 e.2.1 e.2.2)).flatten) := by
    rw [indexBytes, hmap]
    simp [List.append_assoc]
  refine ⟨es, ?_, hl⟩
  rw [hshape]
  have h1 : INDEX_MAGIC.isPrefixOf (INDEX_MAGIC ++ (natBytesLE 8 blocks.length ++
      (((blocks.zip (blockOffsets start blocks)).map
        (fun p => (p.2, p.1.data.length, checksumOf p.1.data))).map
        (fun e => indexEntryBytes e.1 e.2.1 e.2.2)).flatten)) = true :=
    isPrefixOf_append_self _ _
  have h2 : (INDEX_MAGIC ++ (natBytesLE 8 blocks.length ++
      (((blocks.zip (blockOffsets start blocks)).map
        (fun p => (p.2, p.1.data.length, checksumOf p.1.data))).map
        (fun e => indexEntryBytes e.1 e.2.1 e.2.2)).flatten)).drop 5 =
      natBytesLE 8 blocks.length ++
        (((blocks.zip (blockOffsets start blocks)).map
          (fun p => (p.2, p.1.data.length, checksumOf p.1.data))).map
          (fun e => indexEntryBytes e.1 e.2.1 e.2.2)).flatten :=
    List.drop_left' (by simp [INDEX_MAGIC])
  have h3 : (natBytesLE 8 blocks.length ++
      (((blocks.zip (blockOffsets start blocks)).map
        (fun p => (p.2, p.1.data.length, checksumOf p.1.data))).map
        (fun e => indexEntryBytes e.1 e.2.1 e.2.2)).flatten).take 8 =
      natBytesLE 8 blocks.length :=
    List.take_left' (natBytesLE_length 8 blocks.length)
  have h4 : (natBytesLE 8 blocks.length ++
      (((blocks.zip (blockOffsets start blocks)).map
        (fun p => (p.2, p.1.data.length, checksumOf p.1.data))).map
        (fun e => indexEntryBytes e.1 e.2.1 e.2.2)).flatten).drop 8 =
      (((blocks.zip (blockOffsets start blocks)).map
        (fun p => (p.2, p.1.data.length, checksumOf p.1.data))).map
        (fun e => indexEntryBytes e.1 e.2.1 e.2.2)).flatten :=
    List.drop_left' (natBytesLE_length 8 blocks.length)
  have h5 : bytesToNatLE (natBytesLE 8 blocks.length) = blocks.length := by
    rw [bytesToNatLE_natBytesLE]
    have hb : (256 : Nat) ^ 8 = 2 ^ 64 := by norm_num
    rw [hb]
    exact Nat.mod_eq_of_lt hcnt
  simp only [parseIndex, h1, h2, h3, h4, h5, natBytesLE_length, if_true, hp]
  simp

/-- There are at least as many stream bytes as blocks (each block
contributes its nonempty magic). -/
theorem blocks_length_le_flatten : ∀ (blocks : List Block),
    blocks.length ≤ ((blocks.map blockBytes).flatten).length
  | [] => Nat.le_refl 0
  | b :: bs => by
      simp only [List.map_cons, List.flatten_cons, List.length_append, List.length_cons]
      have h1 := blocks_length_le_flatten bs
      have h2 : 1 ≤ (blockBytes b).length := by simp [blockBytes, BLOCK_MAGIC]
      omega

/-- Parsing a canonically laid out stream: header and version check,
sentinel split, block run, and the leftover index bytes. -/
theorem parseFile_stream (treeBytes : List Nat) (blocks : List Block) (idx : List Nat)
    (hsf : sentinelFree treeBytes = true)
    (hwf : ∀ b ∈ blocks, b.alg < 256 ∧ b.data.length < 2 ^ 64)
    (hidx : BLOCK_MAGIC.isPrefixOf idx = false) :
    parseFile (MAGIC ++ (VERSION :: ((treeBytes ++ SENTINEL) ++
        ((blocks.map blockBytes).flatten ++ idx)))) =
      (if idx = [] then some (treeBytes, blocks, false)
       else (parseIndex idx).bind fun es =>
         if es.length = blocks.length then some (treeBytes, blocks, true) else none) := by
  have hpre : MAGIC.isPrefixOf (MAGIC ++ (VERSION :: ((treeBytes ++ SENTINEL) ++
      ((blocks.map blockBytes).flatten ++ idx)))) = true := isPrefixOf_append_self _ _
  have hdrop : (MAGIC ++ (VERSION :: ((treeBytes ++ SENTINEL) ++
      ((blocks.map blockBytes).flatten ++ idx)))).drop 5 =
      VERSION :: ((treeBytes ++ SENTINEL) ++ ((blocks.map blockBytes).flatten ++ idx)) :=
    List.drop_left' (by simp [MAGIC])
  have hfind : findSeq ((treeBytes ++ SENTINEL) ++
      ((blocks.map blockBytes).flatten ++ idx)) SENTINEL = some treeBytes.length := by
    show findSeqAux SENTINEL (treeBytes ++ SENTINEL ++
      ((blocks.map blockBytes).flatten ++ idx)) 0 = _
    rw [findSeqAux_sentinel treeBytes _ 0 hsf]
    simp
  have htake : ((treeBytes ++ SENTINEL) ++
      ((blocks.map blockBytes).flatten ++ idx)).take treeBytes.length = treeBytes := by
    rw [List.append_assoc]
    exact List.take_left' rfl
  have hdrop2 : ((treeBytes ++ SENTINEL) ++
      ((blocks.map blockBytes).flatten ++ idx)).drop (treeBytes.length + SENTINEL.length) =
      (blocks.map blockBytes).flatten ++ idx :=
    List.drop_left' (by simp)
  have hfuel : blocks.length ≤ ((blocks.map blockBytes).flatten ++ idx).length := by
    have h1 := blocks_length_le_flatten blocks
    simp only [List.length_append]
    omega
  have hblocks := parseBlocksAux_roundtrip blocks idx
    (((blocks.map blockBytes).flatten ++ idx).length) hwf hfuel hidx
  simp only [parseFile, hpre, if_true, hdrop, hfind, htake, hdrop2, hblocks,
    Option.bind_eq_bind, Option.some_bind]
  cases idx with
  | nil => rfl
  | cons a as => rfl

/-- Claim C6: the assembled whole-file byte stream has exactly the
layout magic header and format version, then the textual tree segment
terminated by the sentinel, then the raw blocks in declaration order,
then the optional block index — and decoding reverses this layout,
recovering the textual segment bytes, the blocks and the index presence
from the stream alone. -/
theorem file_layout_roundtrip (treeBytes : List Nat) (blocks : List Block) (withIndex : Bool)
    (hsf : sentinelFree treeBytes = true)
    (hwf : ∀ b ∈ blocks, b.alg < 256 ∧ b.data.length < 2 ^ 64)
    (hcnt : blocks.length < 2 ^ 64) :
    assembleFile treeBytes blocks withIndex =
      MAGIC ++ [VERSION] ++ treeBytes ++ SENTINEL ++ (blocks.map blockBytes).flatten ++
        (if withIndex then
          indexBytes (MAGIC ++ [VERSION] ++ treeBytes ++ SENTINEL).length blocks
         else []) ∧
    parseFile (assembleFile treeBytes blocks withIndex) = some (treeBytes, blocks, withIndex) := by
  constructor
  · rfl
  · cases withIndex with
    | false =>
        have hs : assembleFile treeBytes blocks false =
            MAGIC ++ (VERSION :: ((treeBytes ++ SENTINEL) ++
              ((blocks.map blockBytes).flatten ++ ([] : List Nat)))) := by
          simp [assembleFile, List.append_assoc]
        rw [hs, parseFile_stream treeBytes blocks [] hsf hwf (by decide)]
        simp
    | true =>
        have hs : assembleFile treeBytes blocks true =
            MAGIC ++ (VERSION :: ((treeBytes ++ SENTINEL) ++
              ((blocks.map blockBytes).flatten ++
                indexBytes (MAGIC ++ [VERSION] ++ treeBytes ++ SENTINEL).length blocks))) := by
          simp [assembleFile, List.append_assoc]
        have hidx : BLOCK_MAGIC.isPrefixOf
            (indexBytes (MAGIC ++ [VERSION] ++ treeBytes ++ SENTINEL).length blocks) = false := by
          simp [indexBytes, INDEX_MAGIC, BLOCK_MAGIC, List.isPrefixOf]
        rw [hs, parseFile_stream treeBytes blocks _ hsf hwf hidx]
        obtain ⟨es, hpi, hes⟩ := parseIndex_indexBytes
          ((MAGIC ++ [VERSION] ++ treeBytes ++ SENTINEL).length) blocks hcnt
        have hne : indexBytes (MAGIC ++ [VERSION] ++ treeBytes ++ SENTINEL).length blocks ≠
            [] := by
          simp [indexBytes, INDEX_MAGIC]
        rw [if_neg hne, hpi]
        simp [hes]

/-- Witness for C6 at a concrete stream: a three-byte sentinel-free
textual segment, one block, index present. -/
theorem file_layout_roundtrip_witness :
    sentinelFree [97, 98, 99] = true ∧
    parseFile (assembleFile [97, 98, 99] [⟨0, [1, 2]⟩] true) =
      some ([97, 98, 99], [⟨0, [1, 2]⟩], true) :=
  ⟨by decide,
   (file_layout_roundtrip [97, 98, 99] [⟨0, [1, 2]⟩] true
      (by decide) (by decide) (by decide)).2⟩

end Asdf
